import Mathlib

/-!
Verification of the Wordle clone's guess-scoring engine, hard-mode
constraint tracker, and multiplayer session protocol, shallowly embedded
from `script.js` and `multiplayer.js`.
-/

namespace Wordle

/-- Per-letter mark produced by `evaluateGuess` (`'correct' | 'present' | 'absent'`). -/
inductive Mark
  | correct
  | present
  | absent
deriving DecidableEq

/-- A cell of the working arrays in `evaluateGuess`: a letter or `null`. -/
abbrev Slot := Option Char

/-- First pass of `evaluateGuess` (script.js:284-290): positions where guess and
target agree are marked `correct` and both array cells are nulled.  Each output
entry keeps `(original guess char, live guessArr cell, mark so far)` together
with the live `targetArr` cell. -/
def pass1 : List Char → List Char → List ((Char × Slot × Mark) × Slot)
  | [], _ => []
  | _ :: _, [] => []
  | g :: gs, t :: ts =>
    (if g = t then ((g, none, Mark.correct), none) else ((g, some g, Mark.absent), some t))
      :: pass1 gs ts

/-- `targetArr.indexOf(c)` followed by nulling that cell (script.js:295-298):
returns the list with the leftmost `some c` replaced by `none`, or `none`
when `c` does not occur. -/
def consumeFirst (c : Char) : List Slot → Option (List Slot)
  | [] => none
  | s :: rest =>
    if s = some c then some (none :: rest)
    else
      match consumeFirst c rest with
      | some rest2 => some (s :: rest2)
      | none => none

/-- Second pass of `evaluateGuess` (script.js:293-300): skip nulled guess cells;
otherwise look for the letter among the remaining target cells, marking
`present` and consuming the leftmost occurrence when found. -/
def pass2 : List (Char × Slot × Mark) → List Slot → List (Char × Mark)
  | [], _ => []
  | (g, none, m) :: rest, tgt => (g, m) :: pass2 rest tgt
  | (g, some c, m) :: rest, tgt =>
    match consumeFirst c tgt with
    | some tgt2 => (g, Mark.present) :: pass2 rest tgt2
    | none => (g, m) :: pass2 rest tgt

/-- `evaluateGuess` output, with each mark paired with its guess letter. -/
def evaluateGuessPairs (guess target : List Char) : List (Char × Mark) :=
  pass2 ((pass1 guess target).map Prod.fst) ((pass1 guess target).map Prod.snd)

/-- `evaluateGuess(guess, target)` (script.js:278-303): the two-pass multiset
scoring algorithm. -/
def evaluateGuess (guess target : List Char) : List Mark :=
  (evaluateGuessPairs guess target).map Prod.snd

example :
    evaluateGuess ['T', 'R', 'A', 'C', 'E'] ['C', 'R', 'A', 'N', 'E'] =
      [Mark.absent, Mark.correct, Mark.correct, Mark.present, Mark.correct] := by decide

example :
    evaluateGuess ['C', 'R', 'A', 'N', 'E'] ['C', 'R', 'A', 'N', 'E'] =
      [Mark.correct, Mark.correct, Mark.correct, Mark.correct, Mark.correct] := by decide

example :
    evaluateGuess ['A', 'L', 'L', 'E', 'Y'] ['L', 'L', 'A', 'M', 'A'] =
      [Mark.present, Mark.correct, Mark.present, Mark.absent, Mark.absent] := by decide

/-! ### Counting helpers for the duplicate-letter analysis -/

/-- Number of live `some X` cells in a working array. -/
def countSlot (X : Char) : List Slot → Nat
  | [] => 0
  | s :: rest => (if s = some X then 1 else 0) + countSlot X rest

/-- Number of occurrences of the letter `X` in a word. -/
def countCh (X : Char) : List Char → Nat
  | [] => 0
  | c :: rest => (if c = X then 1 else 0) + countCh X rest

/-- Number of positions whose guess letter is `X` carrying a `correct` or
`present` mark. -/
def marksFor (X : Char) : List (Char × Mark) → Nat
  | [] => 0
  | p :: rest => (if p.1 = X ∧ p.2 ≠ Mark.absent then 1 else 0) + marksFor X rest

/-- Number of positions whose guess letter is `X` carrying an `absent` mark. -/
def absentFor (X : Char) : List (Char × Mark) → Nat
  | [] => 0
  | p :: rest => (if p.1 = X ∧ p.2 = Mark.absent then 1 else 0) + absentFor X rest

/-- Number of pass-1 entries with guess letter `X` whose guess cell was nulled
(i.e. marked `correct` in the first pass). -/
def noneFor (X : Char) : List (Char × Slot × Mark) → Nat
  | [] => 0
  | e :: rest => (if e.1 = X ∧ e.2.1 = none then 1 else 0) + noneFor X rest

lemma pass1_count (X : Char) :
    ∀ g t : List Char,
      noneFor X ((pass1 g t).map Prod.fst) + countSlot X ((pass1 g t).map Prod.snd)
        ≤ countCh X t := by
  intro g
  induction g with
  | nil => intro t; simp [pass1, noneFor, countSlot]
  | cons gc gs ih =>
    intro t
    cases t with
    | nil => simp [pass1, noneFor, countSlot]
    | cons tc ts =>
      have h := ih ts
      by_cases hgt : gc = tc
      · subst hgt
        simp only [pass1, if_pos rfl, List.map_cons, noneFor, countSlot, countCh]
        simp
        split_ifs <;> omega
      · simp only [pass1, if_neg hgt, List.map_cons, noneFor, countSlot, countCh]
        simp
        split_ifs <;> omega

lemma consumeFirst_count (c X : Char) :
    ∀ tgt tgt2 : List Slot, consumeFirst c tgt = some tgt2 →
      countSlot X tgt = countSlot X tgt2 + (if c = X then 1 else 0) := by
  intro tgt
  induction tgt with
  | nil => intro tgt2 h; simp [consumeFirst] at h
  | cons s rest ih =>
    intro tgt2 h
    by_cases hs : s = some c
    · simp only [consumeFirst, if_pos hs] at h
      obtain rfl : (none : Slot) :: rest = tgt2 := by simpa using h
      subst hs
      simp only [countSlot]
      simp
      split_ifs <;> omega
    · cases hr : consumeFirst c rest with
      | none => simp [consumeFirst, hs, hr] at h
      | some rest2 =>
        obtain rfl : s :: rest2 = tgt2 := by
          simpa [consumeFirst, hs, hr] using h
        have h2 := ih rest2 hr
        simp only [countSlot]
        omega

/-- Every pass-1 entry is well-formed: a live guess cell holds the original
letter and carries mark `absent`, while a nulled guess cell carries `correct`. -/
lemma pass1_wf :
    ∀ g t : List Char, ∀ e ∈ (pass1 g t).map Prod.fst,
      (∀ c, e.2.1 = some c → c = e.1) ∧ (e.2.1 = none → e.2.2 = Mark.correct) ∧
        (e.2.1 ≠ none → e.2.2 = Mark.absent) := by
  intro g
  induction g with
  | nil => intro t e he; simp [pass1] at he
  | cons gc gs ih =>
    intro t e he
    cases t with
    | nil => simp [pass1] at he
    | cons tc ts =>
      by_cases hgt : gc = tc
      · simp only [pass1, if_pos hgt, List.map_cons, List.mem_cons] at he
        rcases he with rfl | he
        · refine ⟨?_, ?_, ?_⟩ <;> simp
        · exact ih ts e he
      · simp only [pass1, if_neg hgt, List.map_cons, List.mem_cons] at he
        rcases he with rfl | he
        · refine ⟨?_, ?_, ?_⟩ <;> simp
        · exact ih ts e he

lemma pass2_bound (X : Char) :
    ∀ (l : List (Char × Slot × Mark)) (tgt : List Slot),
      (∀ e ∈ l, ∀ c, e.2.1 = some c → c = e.1) →
      (∀ e ∈ l, e.2.1 ≠ none → e.2.2 = Mark.absent) →
      marksFor X (pass2 l tgt) ≤ noneFor X l + countSlot X tgt := by
  intro l
  induction l with
  | nil => intro tgt _ _; simp [pass2, marksFor, noneFor]
  | cons e rest ih =>
    intro tgt hch hwf
    obtain ⟨g, sl, m⟩ := e
    have hch' := fun e he => hch e (List.mem_cons_of_mem _ he)
    have hwf' := fun e he => hwf e (List.mem_cons_of_mem _ he)
    cases sl with
    | none =>
      have h := ih tgt hch' hwf'
      clear hch hwf hch' hwf' ih
      by_cases hgX : g = X
      · by_cases hm : m = Mark.absent <;>
          simp [pass2, marksFor, noneFor, hgX, hm] <;> omega
      · simp [pass2, marksFor, noneFor, hgX]
        omega
    | some c =>
      obtain rfl : c = g := hch (g, some c, m) (List.mem_cons_self _ _) c rfl
      have hm : m = Mark.absent := by
        have := hwf (c, some c, m) (List.mem_cons_self _ _)
        simpa using this
      subst hm
      cases hcf : consumeFirst c tgt with
      | some tgt2 =>
        have h := ih tgt2 hch' hwf'
        have hcount := consumeFirst_count c X tgt tgt2 hcf
        clear hch hwf hch' hwf' ih
        by_cases hcX : c = X
        · subst hcX
          rw [if_pos rfl] at hcount
          simp [pass2, hcf, marksFor, noneFor]
          omega
        · rw [if_neg hcX] at hcount
          simp [pass2, hcf, marksFor, noneFor, hcX]
          omega
      | none =>
        have h := ih tgt hch' hwf'
        clear hch hwf hch' hwf' ih
        simp [pass2, hcf, marksFor, noneFor]
        omega

/-- The scoring output preserves the guess letters in order. -/
lemma pass2_map_fst :
    ∀ (l : List (Char × Slot × Mark)) (tgt : List Slot),
      (pass2 l tgt).map Prod.fst = l.map (fun e => e.1) := by
  intro l
  induction l with
  | nil => intro tgt; simp [pass2]
  | cons e rest ih =>
    intro tgt
    obtain ⟨g, sl, m⟩ := e
    cases sl with
    | none => simp [pass2, ih]
    | some c =>
      cases hcf : consumeFirst c tgt with
      | some tgt2 => simp [pass2, hcf, ih]
      | none => simp [pass2, hcf, ih]

lemma pass1_fst_char :
    ∀ g t : List Char, g.length = t.length →
      ((pass1 g t).map Prod.fst).map (fun e => e.1) = g := by
  intro g
  induction g with
  | nil => intro t _; simp [pass1]
  | cons gc gs ih =>
    intro t hlen
    cases t with
    | nil => simp at hlen
    | cons tc ts =>
      by_cases hgt : gc = tc <;>
        simp [pass1, hgt, ih ts (by simpa using hlen)]

/-- With equal input lengths, zipping the guess against the mark sequence
recovers the letter/mark pairs of the scoring run. -/
lemma zip_eval_eq_pairs (g t : List Char) (hlen : g.length = t.length) :
    g.zip (evaluateGuess g t) = evaluateGuessPairs g t := by
  have h1 : (evaluateGuessPairs g t).map Prod.fst = g := by
    rw [evaluateGuessPairs, pass2_map_fst]
    exact pass1_fst_char g t hlen
  exact (List.zip_of_prod h1 rfl).symm

lemma marks_add_absent (X : Char) :
    ∀ l : List (Char × Mark),
      marksFor X l + absentFor X l = countCh X (l.map Prod.fst) := by
  intro l
  induction l with
  | nil => simp [marksFor, absentFor, countCh]
  | cons p rest ih =>
    simp only [marksFor, absentFor, countCh, List.map_cons]
    split_ifs <;> simp_all <;> omega

lemma consumeFirst_none_count (c : Char) :
    ∀ tgt : List Slot, consumeFirst c tgt = none → countSlot c tgt = 0 := by
  intro tgt
  induction tgt with
  | nil => intro _; simp [countSlot]
  | cons s rest ih =>
    intro h
    by_cases hs : s = some c
    · simp [consumeFirst, hs] at h
    · cases hr : consumeFirst c rest with
      | some rest2 => simp [consumeFirst, hs, hr] at h
      | none => simp [countSlot, hs, ih hr]

/-- Once the target array holds no live copy of `X`, no later position can be
marked `present` for `X`. -/
lemma pass2_no_present (X : Char) :
    ∀ (l : List (Char × Slot × Mark)) (tgt : List Slot),
      (∀ e ∈ l, ∀ c, e.2.1 = some c → c = e.1) →
      (∀ e ∈ l, e.2.1 ≠ none → e.2.2 = Mark.absent) →
      (∀ e ∈ l, e.2.1 = none → e.2.2 = Mark.correct) →
      countSlot X tgt = 0 →
      ∀ j : Nat, (pass2 l tgt)[j]? ≠ some (X, Mark.present) := by
  intro l
  induction l with
  | nil => intro tgt _ _ _ _ j; simp [pass2]
  | cons e rest ih =>
    intro tgt hch hwf hcm hcount j
    obtain ⟨g, sl, m⟩ := e
    have hch' := fun e he => hch e (List.mem_cons_of_mem _ he)
    have hwf' := fun e he => hwf e (List.mem_cons_of_mem _ he)
    have hcm' := fun e he => hcm e (List.mem_cons_of_mem _ he)
    cases sl with
    | none =>
      have hm : m = Mark.correct := by
        simpa using hcm (g, none, m) (List.mem_cons_self _ _)
      subst hm
      cases j with
      | zero => simp [pass2]
      | succ j' => simpa [pass2] using ih tgt hch' hwf' hcm' hcount j'
    | some c =>
      obtain rfl : c = g := hch (g, some c, m) (List.mem_cons_self _ _) c rfl
      have hm : m = Mark.absent := by
        simpa using hwf (c, some c, m) (List.mem_cons_self _ _)
      subst hm
      cases hcf : consumeFirst c tgt with
      | some tgt2 =>
        have hle : countSlot X tgt2 = 0 := by
          have := consumeFirst_count c X tgt tgt2 hcf
          omega
        cases j with
        | zero =>
          intro hcontra
          simp only [pass2, hcf, List.getElem?_cons_zero, Option.some_inj] at hcontra
          obtain ⟨rfl, -⟩ := Prod.mk.injEq .. ▸ hcontra
          have := consumeFirst_count c c tgt tgt2 hcf
          simp at this
          omega
        | succ j' => simpa [pass2, hcf] using ih tgt2 hch' hwf' hcm' hle j'
      | none =>
        cases j with
        | zero => simp [pass2, hcf]
        | succ j' => simpa [pass2, hcf] using ih tgt hch' hwf' hcm' hcount j'

/-- Present marks are handed out left to right: a position marked `absent` for
`X` means the target array was already exhausted for `X`, so no later position
can be marked `present` for `X`. -/
lemma pass2_leftmost (X : Char) :
    ∀ (l : List (Char × Slot × Mark)) (tgt : List Slot) (i j : Nat),
      (∀ e ∈ l, ∀ c, e.2.1 = some c → c = e.1) →
      (∀ e ∈ l, e.2.1 ≠ none → e.2.2 = Mark.absent) →
      (∀ e ∈ l, e.2.1 = none → e.2.2 = Mark.correct) →
      i < j →
      (pass2 l tgt)[i]? = some (X, Mark.absent) →
      (pass2 l tgt)[j]? = some (X, Mark.present) → False := by
  intro l
  induction l with
  | nil => intro tgt i j _ _ _ _ hi _; simp [pass2] at hi
  | cons e rest ih =>
    intro tgt i j hch hwf hcm hij hi hj
    obtain ⟨g, sl, m⟩ := e
    have hch' := fun e he => hch e (List.mem_cons_of_mem _ he)
    have hwf' := fun e he => hwf e (List.mem_cons_of_mem _ he)
    have hcm' := fun e he => hcm e (List.mem_cons_of_mem _ he)
    cases sl with
    | none =>
      have hm : m = Mark.correct := by
        simpa using hcm (g, none, m) (List.mem_cons_self _ _)
      subst hm
      cases i with
      | zero => simp [pass2] at hi
      | succ i' =>
        cases j with
        | zero => omega
        | succ j' =>
          simp only [pass2, List.getElem?_cons_succ] at hi hj
          exact ih tgt i' j' hch' hwf' hcm' (by omega) hi hj
    | some c =>
      obtain rfl : c = g := hch (g, some c, m) (List.mem_cons_self _ _) c rfl
      have hm : m = Mark.absent := by
        simpa using hwf (c, some c, m) (List.mem_cons_self _ _)
      subst hm
      cases hcf : consumeFirst c tgt with
      | some tgt2 =>
        cases i with
        | zero => simp [pass2, hcf] at hi
        | succ i' =>
          cases j with
          | zero => omega
          | succ j' =>
            simp only [pass2, hcf, List.getElem?_cons_succ] at hi hj
            exact ih tgt2 i' j' hch' hwf' hcm' (by omega) hi hj
      | none =>
        cases i with
        | zero =>
          cases j with
          | zero => omega
          | succ j' =>
            have hcX : c = X := by
              simp [pass2, hcf] at hi
              exact hi
            subst hcX
            simp only [pass2, hcf, List.getElem?_cons_succ] at hj
            exact pass2_no_present c rest tgt hch' hwf' hcm'
              (consumeFirst_none_count c tgt hcf) j' hj
        | succ i' =>
          cases j with
          | zero => omega
          | succ j' =>
            simp only [pass2, hcf, List.getElem?_cons_succ] at hi hj
            exact ih tgt i' j' hch' hwf' hcm' (by omega) hi hj

/-- **C1.** For every guess and target of equal length and every letter `X`:
the number of positions where the guess holds `X` and `evaluateGuess` marks
`correct` or `present` never exceeds the number of occurrences of `X` in the
target; guess copies of `X` beyond the target's count are marked `absent`;
and when guess positions compete for a remaining target copy of `X`, the
leftmost wins (a later `present` for `X` implies no earlier position holding
`X` was marked `absent`). -/
theorem evaluateGuess_duplicate_letters (g t : List Char)
    (hlen : g.length = t.length) (X : Char) :
    marksFor X (g.zip (evaluateGuess g t)) ≤ countCh X t ∧
    countCh X g - countCh X t ≤ absentFor X (g.zip (evaluateGuess g t)) ∧
    (∀ i j : Nat, i < j → g[i]? = some X → g[j]? = some X →
      (evaluateGuess g t)[j]? = some Mark.present →
      (evaluateGuess g t)[i]? ≠ some Mark.absent) := by
  have hz := zip_eval_eq_pairs g t hlen
  have hfst : (evaluateGuessPairs g t).map Prod.fst = g := by
    rw [evaluateGuessPairs, pass2_map_fst]
    exact pass1_fst_char g t hlen
  have hwfall := pass1_wf g t
  have hb := pass2_bound X ((pass1 g t).map Prod.fst) ((pass1 g t).map Prod.snd)
      (fun e he c hc => (hwfall e he).1 c hc) (fun e he h => (hwfall e he).2.2 h)
  have hA := pass1_count X g t
  have h1 : marksFor X (evaluateGuessPairs g t) ≤ countCh X t := by
    rw [evaluateGuessPairs]
    exact hb.trans hA
  refine ⟨by rw [hz]; exact h1, ?_, ?_⟩
  · have hma := marks_add_absent X (evaluateGuessPairs g t)
    rw [hfst] at hma
    rw [hz]
    omega
  · intro i j hij hgi hgj hpj hpi
    simp only [evaluateGuess, List.getElem?_map] at hpi hpj
    rw [← hfst] at hgi hgj
    simp only [List.getElem?_map] at hgi hgj
    cases hpi' : (evaluateGuessPairs g t)[i]? with
    | none => rw [hpi'] at hpi; simp at hpi
    | some pi0 =>
      cases hpj' : (evaluateGuessPairs g t)[j]? with
      | none => rw [hpj'] at hpj; simp at hpj
      | some pj0 =>
        obtain ⟨pic, pim⟩ := pi0
        obtain ⟨pjc, pjm⟩ := pj0
        rw [hpi'] at hpi hgi
        rw [hpj'] at hpj hgj
        simp only [Option.map_some', Option.some_inj] at hpi hpj hgi hgj
        subst hpi
        subst hpj
        subst hgi
        subst hgj
        rw [evaluateGuessPairs] at hpi' hpj'
        exact pass2_leftmost _ ((pass1 g t).map Prod.fst) ((pass1 g t).map Prod.snd) i j
          (fun e he c hc => (hwfall e he).1 c hc) (fun e he h => (hwfall e he).2.2 h)
          (fun e he h => (hwfall e he).2.1 h) hij hpi' hpj'

/-- Witness for **C1** at the spec's worked example (guess `TRACE`, target
`CRANE`) and letter `E`. -/
theorem evaluateGuess_duplicate_letters_witness :
    (['T', 'R', 'A', 'C', 'E'] : List Char).length =
        (['C', 'R', 'A', 'N', 'E'] : List Char).length ∧
      marksFor 'E'
          ((['T', 'R', 'A', 'C', 'E'] : List Char).zip
            (evaluateGuess ['T', 'R', 'A', 'C', 'E'] ['C', 'R', 'A', 'N', 'E'])) ≤
        countCh 'E' ['C', 'R', 'A', 'N', 'E'] :=
  ⟨by decide,
    (evaluateGuess_duplicate_letters ['T', 'R', 'A', 'C', 'E'] ['C', 'R', 'A', 'N', 'E']
      (by decide) 'E').1⟩

/-! ### C6: case handling of `evaluateGuess` -/

/-- **C6 counterexample.** `evaluateGuess` itself performs no case
normalization: scoring the lowercase guess `crane` against the uppercase
target `CRANE` differs from scoring the uppercase guess `CRANE` against it. -/
theorem evaluateGuess_not_case_insensitive :
    evaluateGuess ['c', 'r', 'a', 'n', 'e'] ['C', 'R', 'A', 'N', 'E'] ≠
      evaluateGuess ['C', 'R', 'A', 'N', 'E'] ['C', 'R', 'A', 'N', 'E'] := by decide

/-- **C6 (amended).** Case-insensitivity holds one level up: the callers of
`evaluateGuess` normalize both inputs to uppercase (typed letters are
uppercased in `addLetter`, targets are uppercased on selection), and the
score of the normalized inputs is invariant under changing the case of either
raw input. -/
theorem evaluateGuess_case_insensitive_after_normalization
    (g g' t t' : List Char)
    (hg : g'.map Char.toUpper = g.map Char.toUpper)
    (ht : t'.map Char.toUpper = t.map Char.toUpper) :
    evaluateGuess (g.map Char.toUpper) (t.map Char.toUpper) =
      evaluateGuess (g'.map Char.toUpper) (t'.map Char.toUpper) := by
  rw [hg, ht]

/-- Witness for the amended **C6**: `crane` is a case variant of `CRANE` and
the normalized scores agree. -/
theorem evaluateGuess_case_insensitive_witness :
    (['c', 'r', 'a', 'n', 'e'] : List Char).map Char.toUpper =
        (['C', 'R', 'A', 'N', 'E'] : List Char).map Char.toUpper ∧
      evaluateGuess ((['C', 'R', 'A', 'N', 'E'] : List Char).map Char.toUpper)
          ((['C', 'R', 'A', 'N', 'E'] : List Char).map Char.toUpper) =
        evaluateGuess ((['c', 'r', 'a', 'n', 'e'] : List Char).map Char.toUpper)
          ((['C', 'R', 'A', 'N', 'E'] : List Char).map Char.toUpper) :=
  ⟨by decide,
    evaluateGuess_case_insensitive_after_normalization _ _ _ _ (by decide) (by decide)⟩

/-! ### Hard-mode constraint engine (script.js:316-361) -/

def WORD_LENGTH : Nat := 5
def MAX_GUESSES : Nat := 6

/-- `hardConstraints` (script.js:18-21): green positions as a
position-indexed array of optional letters (the JS object keyed `0..4`),
and the `mustContain` array of `{letter, minCount}` in insertion order. -/
structure HardConstraints where
  exactPositions : List (Option Char)
  mustContain : List (Char × Nat)
deriving DecidableEq

/-- The reset value installed at round start (script.js:563). -/
def emptyConstraints : HardConstraints :=
  ⟨List.replicate WORD_LENGTH none, []⟩

/-- First-match association lookup (models JS object key access /
`Array.prototype.find` on `{letter, minCount}` records). -/
def alookup (c : Char) : List (Char × Nat) → Option Nat
  | [] => none
  | e :: rest => if e.1 = c then some e.2 else alookup c rest

/-- `exactPositions[i] = guess[i]` for every `correct` mark
(script.js:318-320), walking marks, guess letters and the position array in
lockstep. -/
def applyCorrects : List Mark → List Char → List (Option Char) → List (Option Char)
  | r :: rs, gc :: gs, e :: es =>
    (if r = Mark.correct then some gc else e) :: applyCorrects rs gs es
  | _, _, es => es

/-- `freqMap[letter] = (freqMap[letter] || 0) + 1` preserving first-insertion
order (script.js:323-328). -/
def freqMapAdd (m : List (Char × Nat)) (c : Char) : List (Char × Nat) :=
  if (alookup c m).isSome then
    m.map (fun e => if e.1 = c then (e.1, e.2 + 1) else e)
  else m ++ [(c, 1)]

/-- The `freqMap` of correct/present letters of this guess (script.js:323-328). -/
def buildFreqMap (pairs : List (Char × Mark)) : List (Char × Nat) :=
  pairs.foldl
    (fun m p => if p.2 = Mark.correct ∨ p.2 = Mark.present then freqMapAdd m p.1 else m)
    []

/-- `existing.minCount = max(existing.minCount, count)` in place, or push
`{letter, minCount: count}` at the end (script.js:330-337). -/
def mustContainMerge (mc : List (Char × Nat)) (letter : Char) (count : Nat) :
    List (Char × Nat) :=
  if (alookup letter mc).isSome then
    mc.map (fun e => if e.1 = letter then (e.1, max e.2 count) else e)
  else mc ++ [(letter, count)]

/-- `updateHardConstraints(guess, result)` (script.js:316-338). -/
def updateHardConstraints (hc : HardConstraints) (guess : List Char)
    (result : List Mark) : HardConstraints :=
  { exactPositions := applyCorrects result guess hc.exactPositions
    mustContain :=
      (buildFreqMap (guess.zip result)).foldl
        (fun mc e => mustContainMerge mc e.1 e.2) hc.mustContain }

/-- `ordinal(n)` (script.js:359-361). -/
def ordinal (n : Nat) : String :=
  (["1st", "2nd", "3rd", "4th", "5th"][n - 1]?).getD (toString n ++ "th")

/-- The exact-position rejection message of `checkHardMode` (script.js:344). -/
def positionMsg (pos : Nat) (letter : Char) : String :=
  ordinal (pos + 1) ++ " letter must be " ++ letter.toString

/-- The must-contain rejection message of `checkHardMode` (script.js:352). -/
def containMsg (letter : Char) : String :=
  "Guess must contain " ++ letter.toString

/-- First violated green position, walking `exactPositions` in ascending
position order (the iteration order of `Object.entries` over the integer
keys `0..4`). -/
def findExactViolation (w : List Char) : List (Option Char) → Nat → Option (Nat × Char)
  | [], _ => none
  | none :: rest, i => findExactViolation w rest (i + 1)
  | some L :: rest, i =>
    if w[i]? = some L then findExactViolation w rest (i + 1) else some (i, L)

/-- First violated `mustContain` entry in array order (script.js:349-354). -/
def findContainViolation (w : List Char) : List (Char × Nat) → Option Char
  | [] => none
  | e :: rest =>
    if countCh e.1 w < e.2 then some e.1 else findContainViolation w rest

/-- `checkHardMode(guessWord)` (script.js:340-357): first exact-position
violation wins, then first must-contain violation, else `null`. -/
def checkHardMode (hc : HardConstraints) (w : List Char) : Option String :=
  match findExactViolation w hc.exactPositions 0 with
  | some pl => some (positionMsg pl.1 pl.2)
  | none =>
    match findContainViolation w hc.mustContain with
    | some L => some (containMsg L)
    | none => none

/-- The module-level mutable state of script.js that `submitGuess` reads and
writes: the board cursor, the in-progress guess buffer, game flags,
hard-mode constraints, and the evaluated guesses recorded so far
(`saveState` + `mpRecordGuess`). -/
structure ScriptState where
  currentRow : Nat
  currentCol : Nat
  currentGuess : List Char
  gameOver : Bool
  hardMode : Bool
  hardConstraints : HardConstraints
  recordedGuesses : List (List Char × List Mark)
deriving DecidableEq

/-- The per-round reset performed by `startGame` (script.js:560-564): cursor
cleared, `gameOver` false, board/recorded state cleared, and
`hardConstraints` reset to the empty constraint set. -/
def startGameReset (s : ScriptState) : ScriptState :=
  { s with currentRow := 0, currentCol := 0, currentGuess := [],
           gameOver := false, hardConstraints := emptyConstraints,
           recordedGuesses := [] }

/-- `submitGuess()` (script.js:202-273) with DOM/animation side effects
dropped: returns the successor state and the toast message, if any.
`valid` is `isValidWord` (script.js:309-311) and `target` is the round's
fixed `targetWord`. -/
def submitGuess (valid : List Char → Bool) (target : List Char)
    (s : ScriptState) : ScriptState × Option String :=
  if s.currentCol < WORD_LENGTH then (s, some "Not enough letters")
  else
    let guessWord := s.currentGuess
    if !(valid guessWord) then (s, some "Not in word list")
    else
      let score : ScriptState × Option String :=
        let result := evaluateGuess guessWord target
        let s1 := { s with
          hardConstraints := updateHardConstraints s.hardConstraints guessWord result
          recordedGuesses := s.recordedGuesses ++ [(guessWord, result)] }
        if result.all (fun r => r == Mark.correct) then
          ({ s1 with gameOver := true, currentRow := s.currentRow + 1 }, none)
        else
          let s2 := { s1 with currentRow := s.currentRow + 1, currentCol := 0,
                              currentGuess := [] }
          if MAX_GUESSES ≤ s.currentRow + 1 then ({ s2 with gameOver := true }, none)
          else (s2, none)
      if s.hardMode then
        match checkHardMode s.hardConstraints guessWord with
        | some err => (s, some err)
        | none => score
      else score

example :
    checkHardMode ⟨[none, some 'R', some 'A', none, none], [('C', 1)]⟩
      ['T', 'R', 'U', 'C', 'E'] = some "3rd letter must be A" := by decide

example :
    checkHardMode ⟨[none, some 'R', some 'A', none, none], [('C', 1)]⟩
      ['B', 'R', 'A', 'V', 'O'] = some "Guess must contain C" := by decide

example :
    checkHardMode ⟨[none, some 'R', some 'A', none, none], [('C', 1)]⟩
      ['T', 'R', 'A', 'C', 'E'] = none := by decide

lemma findExact_none_iff (w : List Char) :
    ∀ (ep : List (Option Char)) (k : Nat),
      findExactViolation w ep k = none ↔
        ∀ (j : Nat) (L : Char), ep[j]? = some (some L) → w[k + j]? = some L := by
  intro ep
  induction ep with
  | nil => intro k; simp [findExactViolation]
  | cons e rest ih =>
    intro k
    cases e with
    | none =>
      simp only [findExactViolation]
      rw [ih (k + 1)]
      constructor
      · intro h j L hj
        cases j with
        | zero => simp at hj
        | succ j' =>
          have hidx : k + (j' + 1) = (k + 1) + j' := by omega
          rw [hidx]
          exact h j' L (by simpa using hj)
      · intro h j L hj
        have hidx : (k + 1) + j = k + (j + 1) := by omega
        rw [hidx]
        exact h (j + 1) L (by simpa using hj)
    | some L0 =>
      by_cases hw : w[k]? = some L0
      · simp only [findExactViolation, if_pos hw]
        rw [ih (k + 1)]
        constructor
        · intro h j L hj
          cases j with
          | zero =>
            obtain rfl : L0 = L := by simpa using hj
            simpa using hw
          | succ j' =>
            have hidx : k + (j' + 1) = (k + 1) + j' := by omega
            rw [hidx]
            exact h j' L (by simpa using hj)
        · intro h j L hj
          have hidx : (k + 1) + j = k + (j + 1) := by omega
          rw [hidx]
          exact h (j + 1) L (by simpa using hj)
      · simp only [findExactViolation, if_neg hw]
        constructor
        · intro h; simp at h
        · intro h
          have := h 0 L0 (by simp)
          simp only [Nat.add_zero] at this
          exact absurd this hw

lemma findExact_some (w : List Char) :
    ∀ (ep : List (Option Char)) (k pos : Nat) (L : Char),
      findExactViolation w ep k = some (pos, L) →
        ∃ j : Nat, pos = k + j ∧ ep[j]? = some (some L) ∧ w[pos]? ≠ some L := by
  intro ep
  induction ep with
  | nil => intro k pos L h; simp [findExactViolation] at h
  | cons e rest ih =>
    intro k pos L h
    cases e with
    | none =>
      simp only [findExactViolation] at h
      obtain ⟨j, hj1, hj2, hj3⟩ := ih (k + 1) pos L h
      exact ⟨j + 1, by omega, by simpa using hj2, hj3⟩
    | some L0 =>
      by_cases hw : w[k]? = some L0
      · simp only [findExactViolation, if_pos hw] at h
        obtain ⟨j, hj1, hj2, hj3⟩ := ih (k + 1) pos L h
        exact ⟨j + 1, by omega, by simpa using hj2, hj3⟩
      · simp only [findExactViolation, if_neg hw] at h
        obtain ⟨h1, h2⟩ : k = pos ∧ L0 = L := by simpa using h
        subst h1
        subst h2
        exact ⟨0, by omega, by simp, hw⟩

lemma findContain_none_iff (w : List Char) :
    ∀ mc : List (Char × Nat),
      findContainViolation w mc = none ↔ ∀ p ∈ mc, ¬ countCh p.1 w < p.2 := by
  intro mc
  induction mc with
  | nil => simp [findContainViolation]
  | cons e rest ih =>
    by_cases he : countCh e.1 w < e.2
    · simp only [findContainViolation, if_pos he]
      constructor
      · intro h; simp at h
      · intro h; exact absurd he (h e (List.mem_cons_self _ _))
    · simp only [findContainViolation, if_neg he]
      rw [ih]
      constructor
      · intro h p hp
        rcases List.mem_cons.mp hp with rfl | hp'
        · exact he
        · exact h p hp'
      · intro h p hp
        exact h p (List.mem_cons_of_mem _ hp)

lemma findContain_some (w : List Char) :
    ∀ (mc : List (Char × Nat)) (L : Char),
      findContainViolation w mc = some L →
        ∃ m, (L, m) ∈ mc ∧ countCh L w < m := by
  intro mc
  induction mc with
  | nil => intro L h; simp [findContainViolation] at h
  | cons e rest ih =>
    intro L h
    by_cases he : countCh e.1 w < e.2
    · simp only [findContainViolation, if_pos he] at h
      obtain rfl : e.1 = L := by simpa using h
      exact ⟨e.2, by simp, he⟩
    · simp only [findContainViolation, if_neg he] at h
      obtain ⟨m, hm, hc⟩ := ih L h
      exact ⟨m, List.mem_cons_of_mem _ hm, hc⟩

/-- `checkHardMode` accepts exactly the guesses meeting every recorded
constraint. -/
lemma checkHardMode_none_iff (hc : HardConstraints) (w : List Char) :
    checkHardMode hc w = none ↔
      ((∀ (j : Nat) (L : Char), hc.exactPositions[j]? = some (some L) → w[j]? = some L) ∧
        ∀ p ∈ hc.mustContain, ¬ countCh p.1 w < p.2) := by
  unfold checkHardMode
  cases hfe : findExactViolation w hc.exactPositions 0 with
  | some pl =>
    obtain ⟨pos, L⟩ := pl
    simp only []
    constructor
    · intro h; simp at h
    · rintro ⟨h1, -⟩
      obtain ⟨j, hj1, hj2, hj3⟩ := findExact_some w hc.exactPositions 0 pos L hfe
      have := h1 j L hj2
      rw [hj1, Nat.zero_add] at hj3
      exact absurd this hj3
  | none =>
    cases hfc : findContainViolation w hc.mustContain with
    | some L =>
      simp only []
      constructor
      · intro h; simp at h
      · rintro ⟨-, h2⟩
        obtain ⟨m, hm, hcnt⟩ := findContain_some w hc.mustContain L hfc
        exact absurd hcnt (h2 (L, m) hm)
    | none =>
      simp only []
      constructor
      · intro _
        refine ⟨?_, (findContain_none_iff w hc.mustContain).mp hfc⟩
        intro j L hj
        have := (findExact_none_iff w hc.exactPositions 0).mp hfe j L hj
        simpa using this
      · intro _; trivial

/-- Any rejection message of `checkHardMode` names a violated exact position
or a violated must-contain letter. -/
lemma checkHardMode_some_spec (hc : HardConstraints) (w : List Char) (msg : String)
    (h : checkHardMode hc w = some msg) :
    (∃ (j : Nat) (L : Char), hc.exactPositions[j]? = some (some L) ∧
        w[j]? ≠ some L ∧ msg = positionMsg j L) ∨
      (∃ (L : Char) (m : Nat), (L, m) ∈ hc.mustContain ∧ countCh L w < m ∧
        msg = containMsg L) := by
  unfold checkHardMode at h
  cases hfe : findExactViolation w hc.exactPositions 0 with
  | some pl =>
    obtain ⟨pos, L⟩ := pl
    rw [hfe] at h
    obtain ⟨j, hj1, hj2, hj3⟩ := findExact_some w hc.exactPositions 0 pos L hfe
    rw [Nat.zero_add] at hj1
    subst hj1
    left
    refine ⟨pos, L, hj2, hj3, ?_⟩
    simpa using h.symm
  | none =>
    rw [hfe] at h
    cases hfc : findContainViolation w hc.mustContain with
    | some L =>
      rw [hfc] at h
      obtain ⟨m, hm, hcnt⟩ := findContain_some w hc.mustContain L hfc
      right
      refine ⟨L, m, hm, hcnt, ?_⟩
      simpa using h.symm
    | none => rw [hfc] at h; simp at h

lemma submitGuess_hard_reject (valid : List Char → Bool) (target : List Char)
    (s : ScriptState) (hm : s.hardMode = true) (hcol : ¬ s.currentCol < WORD_LENGTH)
    (hv : valid s.currentGuess = true) (msg : String)
    (hchk : checkHardMode s.hardConstraints s.currentGuess = some msg) :
    submitGuess valid target s = (s, some msg) := by
  unfold submitGuess
  rw [if_neg hcol]
  simp only [hv, Bool.not_true, Bool.false_eq_true, if_neg, hm, if_true, hchk]
  simp

lemma submitGuess_accept (valid : List Char → Bool) (target : List Char)
    (s : ScriptState) (hcol : ¬ s.currentCol < WORD_LENGTH)
    (hv : valid s.currentGuess = true)
    (hchk : s.hardMode = true → checkHardMode s.hardConstraints s.currentGuess = none) :
    (submitGuess valid target s).1.recordedGuesses =
        s.recordedGuesses ++ [(s.currentGuess, evaluateGuess s.currentGuess target)] ∧
      (submitGuess valid target s).1.currentRow = s.currentRow + 1 ∧
      (submitGuess valid target s).1.hardConstraints =
        updateHardConstraints s.hardConstraints s.currentGuess
          (evaluateGuess s.currentGuess target) ∧
      (submitGuess valid target s).2 = none := by
  unfold submitGuess
  rw [if_neg hcol]
  simp only [hv, Bool.not_true, Bool.false_eq_true, if_neg]
  cases hhm : s.hardMode with
  | true =>
    rw [hchk hhm]
    by_cases hall :
        (evaluateGuess s.currentGuess target).all (fun r => r == Mark.correct) = true <;>
      by_cases hmax : MAX_GUESSES ≤ s.currentRow + 1 <;>
        simp [hall, hmax]
  | false =>
    by_cases hall :
        (evaluateGuess s.currentGuess target).all (fun r => r == Mark.correct) = true <;>
      by_cases hmax : MAX_GUESSES ≤ s.currentRow + 1 <;>
        simp [hall, hmax]

/-- **C4.** With hard mode on and the basic validations passed, a submitted
guess is validated against the accumulated constraints before being scored:
a violated exact position or a violated must-contain letter makes
`submitGuess` return the state unchanged together with a message naming that
position (`positionMsg`) or that letter (`containMsg`) — the guess is
neither evaluated, nor recorded, nor does it advance the current row — while
a guess satisfying every constraint is accepted and scored. -/
theorem hard_mode_gates_scoring (valid : List Char → Bool) (target : List Char)
    (s : ScriptState) (hm : s.hardMode = true) (hcol : ¬ s.currentCol < WORD_LENGTH)
    (hv : valid s.currentGuess = true) :
    (∀ msg, checkHardMode s.hardConstraints s.currentGuess = some msg →
      submitGuess valid target s = (s, some msg) ∧
      ((∃ (j : Nat) (L : Char), s.hardConstraints.exactPositions[j]? = some (some L) ∧
          s.currentGuess[j]? ≠ some L ∧ msg = positionMsg j L) ∨
        (∃ (L : Char) (m : Nat), (L, m) ∈ s.hardConstraints.mustContain ∧
          countCh L s.currentGuess < m ∧ msg = containMsg L))) ∧
    (((∃ (j : Nat) (L : Char), s.hardConstraints.exactPositions[j]? = some (some L) ∧
          s.currentGuess[j]? ≠ some L) ∨
        (∃ (L : Char) (m : Nat), (L, m) ∈ s.hardConstraints.mustContain ∧
          countCh L s.currentGuess < m)) →
      checkHardMode s.hardConstraints s.currentGuess ≠ none) ∧
    (checkHardMode s.hardConstraints s.currentGuess = none →
      (submitGuess valid target s).1.recordedGuesses =
          s.recordedGuesses ++ [(s.currentGuess, evaluateGuess s.currentGuess target)] ∧
        (submitGuess valid target s).1.currentRow = s.currentRow + 1 ∧
        (submitGuess valid target s).2 = none) := by
  refine ⟨?_, ?_, ?_⟩
  · intro msg hchk
    exact ⟨submitGuess_hard_reject valid target s hm hcol hv msg hchk,
      checkHardMode_some_spec s.hardConstraints s.currentGuess msg hchk⟩
  · intro hviol hnone
    rw [checkHardMode_none_iff] at hnone
    rcases hviol with ⟨j, L, hj, hw⟩ | ⟨L, m, hmem, hcnt⟩
    · exact hw (hnone.1 j L hj)
    · exact (hnone.2 (L, m) hmem) hcnt
  · intro hchk
    obtain ⟨h1, h2, h3, h4⟩ := submitGuess_accept valid target s hcol hv (fun _ => hchk)
    exact ⟨h1, h2, h4⟩

/-- Witness for **C4** at the spec's hard-mode scenario: constraints `R` at
position 1, `A` at position 2, must contain `C`; the guess `TRUCE` violates
the `A` constraint and is rejected unchanged with the position message. -/
theorem hard_mode_gates_scoring_witness :
    submitGuess (fun _ => true) ['C', 'R', 'A', 'N', 'E']
        { currentRow := 1, currentCol := 5, currentGuess := ['T', 'R', 'U', 'C', 'E'],
          gameOver := false, hardMode := true,
          hardConstraints := ⟨[none, some 'R', some 'A', none, none], [('C', 1)]⟩,
          recordedGuesses := [] } =
      ({ currentRow := 1, currentCol := 5, currentGuess := ['T', 'R', 'U', 'C', 'E'],
          gameOver := false, hardMode := true,
          hardConstraints := ⟨[none, some 'R', some 'A', none, none], [('C', 1)]⟩,
          recordedGuesses := [] }, some "3rd letter must be A") :=
  ((hard_mode_gates_scoring (fun _ => true) ['C', 'R', 'A', 'N', 'E'] _ rfl (by decide)
      rfl).1 "3rd letter must be A" (by decide)).1

/-- **C10.** `checkHardMode` is observably pure with respect to the
constraint state: a hard-mode rejection leaves `exactPositions`,
`mustContain`, and indeed the whole game state exactly as they were. -/
theorem checkHardMode_rejection_frame (valid : List Char → Bool) (target : List Char)
    (s : ScriptState) (msg : String) (hm : s.hardMode = true)
    (hchk : checkHardMode s.hardConstraints s.currentGuess = some msg) :
    (submitGuess valid target s).1.hardConstraints.exactPositions =
        s.hardConstraints.exactPositions ∧
      (submitGuess valid target s).1.hardConstraints.mustContain =
        s.hardConstraints.mustContain ∧
      (submitGuess valid target s).1 = s := by
  by_cases hcol : s.currentCol < WORD_LENGTH
  · simp [submitGuess, hcol]
  · by_cases hv : valid s.currentGuess = true
    · have h := submitGuess_hard_reject valid target s hm hcol hv msg hchk
      rw [h]
      exact ⟨rfl, rfl, rfl⟩
    · have hv' : valid s.currentGuess = false := by
        cases hvv : valid s.currentGuess
        · rfl
        · exact absurd hvv hv
      simp [submitGuess, hcol, hv']

/-- Witness for **C10**: a guess with no `C` anywhere is rejected by the
must-contain constraint and the state, constraints included, is untouched. -/
theorem checkHardMode_rejection_frame_witness :
    (submitGuess (fun _ => true) ['C', 'R', 'A', 'N', 'E']
        { currentRow := 1, currentCol := 5, currentGuess := ['B', 'R', 'A', 'V', 'O'],
          gameOver := false, hardMode := true,
          hardConstraints := ⟨[none, some 'R', some 'A', none, none], [('C', 1)]⟩,
          recordedGuesses := [] }).1 =
      { currentRow := 1, currentCol := 5, currentGuess := ['B', 'R', 'A', 'V', 'O'],
        gameOver := false, hardMode := true,
        hardConstraints := ⟨[none, some 'R', some 'A', none, none], [('C', 1)]⟩,
        recordedGuesses := [] } :=
  (checkHardMode_rejection_frame (fun _ => true) ['C', 'R', 'A', 'N', 'E'] _
    "Guess must contain C" rfl (by decide)).2.2

/-! ### C5 support: exact-position tracking -/

lemma applyCorrects_get_correct :
    ∀ (r : List Mark) (g : List Char) (ep : List (Option Char)) (i : Nat) (c : Char),
      r[i]? = some Mark.correct → g[i]? = some c → i < ep.length →
      (applyCorrects r g ep)[i]? = some (some c) := by
  intro r
  induction r with
  | nil => intro g ep i c hr; simp at hr
  | cons rm rs ih =>
    intro g ep i c hr hg hlen
    cases g with
    | nil => simp at hg
    | cons gc gs =>
      cases ep with
      | nil => simp at hlen
      | cons e es =>
        cases i with
        | zero =>
          obtain rfl : rm = Mark.correct := by simpa using hr
          obtain rfl : gc = c := by simpa using hg
          simp [applyCorrects]
        | succ i' =>
          simp only [applyCorrects, List.getElem?_cons_succ]
          exact ih gs es i' c (by simpa using hr) (by simpa using hg) (by simpa using hlen)

lemma applyCorrects_get_other :
    ∀ (r : List Mark) (g : List Char) (ep : List (Option Char)) (i : Nat),
      r[i]? ≠ some Mark.correct → (applyCorrects r g ep)[i]? = ep[i]? := by
  intro r
  induction r with
  | nil => intro g ep i _; cases g <;> simp [applyCorrects]
  | cons rm rs ih =>
    intro g ep i hr
    cases g with
    | nil => simp [applyCorrects]
    | cons gc gs =>
      cases ep with
      | nil => simp [applyCorrects]
      | cons e es =>
        cases i with
        | zero =>
          have hrm : rm ≠ Mark.correct := by simpa using hr
          simp [applyCorrects, hrm]
        | succ i' =>
          simp only [applyCorrects, List.getElem?_cons_succ]
          exact ih gs es i' (by simpa using hr)

lemma pass1_length :
    ∀ g t : List Char, g.length = t.length → (pass1 g t).length = g.length := by
  intro g
  induction g with
  | nil => intro t _; simp [pass1]
  | cons gc gs ih =>
    intro t hlen
    cases t with
    | nil => simp at hlen
    | cons tc ts =>
      by_cases hgt : gc = tc <;> simp [pass1, hgt, ih ts (by simpa using hlen)]

lemma pass2_length (l : List (Char × Slot × Mark)) (tgt : List Slot) :
    (pass2 l tgt).length = l.length := by
  have h := congrArg List.length (pass2_map_fst l tgt)
  simpa using h

lemma evaluateGuess_length (g t : List Char) (hlen : g.length = t.length) :
    (evaluateGuess g t).length = g.length := by
  simp [evaluateGuess, evaluateGuessPairs, pass2_length, pass1_length g t hlen]

/-- In the scoring output, a `correct` mark at a position corresponds exactly
to a pass-1 entry whose guess cell was nulled with mark `correct`. -/
lemma pass2_correct_get :
    ∀ (l : List (Char × Slot × Mark)) (tgt : List Slot) (i : Nat) (x : Char),
      (∀ e ∈ l, e.2.1 ≠ none → e.2.2 = Mark.absent) →
      ((pass2 l tgt)[i]? = some (x, Mark.correct) ↔
        l[i]? = some (x, none, Mark.correct)) := by
  intro l
  induction l with
  | nil => intro tgt i x _; simp [pass2]
  | cons e rest ih =>
    intro tgt i x hwf
    obtain ⟨g, sl, m⟩ := e
    have hwf' := fun e he => hwf e (List.mem_cons_of_mem _ he)
    cases sl with
    | none =>
      cases i with
      | zero => simp [pass2]
      | succ i' => simpa [pass2] using ih tgt i' x hwf'
    | some c =>
      have hm : m = Mark.absent := by
        simpa using hwf (g, some c, m) (List.mem_cons_self _ _)
      subst hm
      cases hcf : consumeFirst c tgt with
      | some tgt2 =>
        cases i with
        | zero => simp [pass2, hcf]
        | succ i' => simpa [pass2, hcf] using ih tgt2 i' x hwf'
      | none =>
        cases i with
        | zero => simp [pass2, hcf]
        | succ i' => simpa [pass2, hcf] using ih tgt i' x hwf'

lemma pass1_get_correct :
    ∀ (g t : List Char) (i : Nat) (c : Char),
      ((pass1 g t).map Prod.fst)[i]? = some (c, none, Mark.correct) ↔
        (g[i]? = some c ∧ t[i]? = some c) := by
  intro g
  induction g with
  | nil => intro t i c; simp [pass1]
  | cons gc gs ih =>
    intro t i c
    cases t with
    | nil => simp [pass1]
    | cons tc ts =>
      by_cases hgt : gc = tc
      · subst hgt
        cases i with
        | zero => simp [pass1]
        | succ i' => simpa [pass1] using ih ts i' c
      · cases i with
        | zero =>
          simp only [pass1, if_neg hgt, List.map_cons, List.getElem?_cons_zero]
          constructor
          · intro h; simp at h
          · rintro ⟨h1, h2⟩
            have e1 : gc = c := by simpa using h1
            have e2 : tc = c := by simpa using h2
            exact absurd (e1.trans e2.symm) hgt
        | succ i' => simpa [pass1, hgt] using ih ts i' c

/-- A position carries a `correct` mark exactly when guess and target agree
there. -/
lemma evaluateGuess_correct_iff (g t : List Char) (i : Nat) (c : Char)
    (hgi : g[i]? = some c) :
    (evaluateGuess g t)[i]? = some Mark.correct ↔ t[i]? = some c := by
  have hwf : ∀ e ∈ (pass1 g t).map Prod.fst, e.2.1 ≠ none → e.2.2 = Mark.absent :=
    fun e he hne => (pass1_wf g t e he).2.2 hne
  constructor
  · intro h
    simp only [evaluateGuess, List.getElem?_map] at h
    cases hp : (evaluateGuessPairs g t)[i]? with
    | none => rw [hp] at h; simp at h
    | some p =>
      rw [hp] at h
      obtain ⟨pc, pm⟩ := p
      obtain rfl : pm = Mark.correct := by simpa using h
      rw [evaluateGuessPairs] at hp
      have h2 := (pass2_correct_get ((pass1 g t).map Prod.fst)
        ((pass1 g t).map Prod.snd) i pc hwf).mp hp
      have h3 := (pass1_get_correct g t i pc).mp h2
      obtain rfl : c = pc := by
        have := h3.1
        rw [hgi] at this
        simpa using this
      exact h3.2
  · intro h
    have h2 := (pass1_get_correct g t i c).mpr ⟨hgi, h⟩
    have h3 := (pass2_correct_get ((pass1 g t).map Prod.fst)
      ((pass1 g t).map Prod.snd) i c hwf).mpr h2
    simp only [evaluateGuess, evaluateGuessPairs, List.getElem?_map]
    rw [h3]
    rfl

/-! ### C5 support: must-contain tracking -/

lemma alookup_inc_update (c L : Char) :
    ∀ m : List (Char × Nat),
      alookup L (m.map (fun e => if e.1 = c then (e.1, e.2 + 1) else e)) =
        if L = c then (alookup L m).map (fun v => v + 1) else alookup L m := by
  intro m
  induction m with
  | nil => simp [alookup]
  | cons e rest ih =>
    by_cases heL : e.1 = L
    · by_cases hLc : L = c
      · have hec : e.1 = c := heL.trans hLc
        simp [alookup, heL, hec, hLc]
      · have hec : ¬ e.1 = c := fun h => hLc (heL.symm.trans h)
        simp [alookup, heL, hec, hLc]
    · by_cases hec : e.1 = c
      · have hcL : ¬ c = L := fun h => heL (hec.trans h)
        have hLc : ¬ L = c := fun h => hcL h.symm
        simp [alookup, heL, hec, hcL, hLc, ih]
      · simp [alookup, heL, hec, ih]

lemma alookup_max_update (c L : Char) (n : Nat) :
    ∀ m : List (Char × Nat),
      alookup L (m.map (fun e => if e.1 = c then (e.1, max e.2 n) else e)) =
        if L = c then (alookup L m).map (fun v => max v n) else alookup L m := by
  intro m
  induction m with
  | nil => simp [alookup]
  | cons e rest ih =>
    by_cases heL : e.1 = L
    · by_cases hLc : L = c
      · have hec : e.1 = c := heL.trans hLc
        simp [alookup, heL, hec, hLc]
      · have hec : ¬ e.1 = c := fun h => hLc (heL.symm.trans h)
        simp [alookup, heL, hec, hLc]
    · by_cases hec : e.1 = c
      · have hcL : ¬ c = L := fun h => heL (hec.trans h)
        have hLc : ¬ L = c := fun h => hcL h.symm
        simp [alookup, heL, hec, hcL, hLc, ih]
      · simp [alookup, heL, hec, ih]

lemma alookup_append (L : Char) :
    ∀ m1 m2 : List (Char × Nat),
      alookup L (m1 ++ m2) =
        match alookup L m1 with
        | some v => some v
        | none => alookup L m2 := by
  intro m1 m2
  induction m1 with
  | nil => simp [alookup]
  | cons e rest ih =>
    by_cases heL : e.1 = L <;> simp [alookup, heL, ih]

lemma alookup_freqMapAdd (m : List (Char × Nat)) (c L : Char) :
    alookup L (freqMapAdd m c) =
      if L = c then some ((alookup L m).getD 0 + 1) else alookup L m := by
  unfold freqMapAdd
  by_cases hs : (alookup c m).isSome = true
  · rw [if_pos hs, alookup_inc_update]
    by_cases hLc : L = c
    · subst hLc
      obtain ⟨v, hv⟩ := Option.isSome_iff_exists.mp hs
      simp [hv]
    · simp [hLc]
  · rw [if_neg hs, alookup_append]
    have hnone : alookup c m = none := Option.not_isSome_iff_eq_none.mp hs
    by_cases hLc : L = c
    · subst hLc
      simp [hnone, alookup]
    · have hcL : ¬ c = L := fun h => hLc h.symm
      cases hm : alookup L m <;> simp [alookup, hcL, hLc, hm]

lemma mark_cp_iff (m : Mark) :
    (m = Mark.correct ∨ m = Mark.present) ↔ m ≠ Mark.absent := by
  cases m <;> simp

lemma buildFreq_step_getD (L : Char) :
    ∀ (pairs : List (Char × Mark)) (acc : List (Char × Nat)),
      (alookup L (pairs.foldl
          (fun m p =>
            if p.2 = Mark.correct ∨ p.2 = Mark.present then freqMapAdd m p.1 else m)
          acc)).getD 0 =
        (alookup L acc).getD 0 + marksFor L pairs := by
  intro pairs
  induction pairs with
  | nil => intro acc; simp [marksFor]
  | cons p rest ih =>
    intro acc
    simp only [List.foldl_cons, marksFor]
    by_cases hcp : p.2 = Mark.correct ∨ p.2 = Mark.present
    · rw [if_pos hcp, ih, alookup_freqMapAdd]
      have hne : p.2 ≠ Mark.absent := (mark_cp_iff p.2).mp hcp
      by_cases hL : p.1 = L
      · rw [if_pos hL.symm, if_pos ⟨hL, hne⟩]
        subst hL
        simp
        omega
      · rw [if_neg (fun h => hL h.symm), if_neg (fun h => hL h.1)]
        omega
    · rw [if_neg hcp, ih]
      have hab : p.2 = Mark.absent := by
        cases hpm : p.2 <;> simp [hpm] at hcp ⊢
      rw [if_neg (fun h : p.1 = L ∧ p.2 ≠ Mark.absent => h.2 hab)]
      omega

lemma buildFreq_step_isSome (L : Char) :
    ∀ (pairs : List (Char × Mark)) (acc : List (Char × Nat)),
      (alookup L (pairs.foldl
          (fun m p =>
            if p.2 = Mark.correct ∨ p.2 = Mark.present then freqMapAdd m p.1 else m)
          acc)).isSome = true ↔
        ((alookup L acc).isSome = true ∨ 0 < marksFor L pairs) := by
  intro pairs
  induction pairs with
  | nil => intro acc; simp [marksFor]
  | cons p rest ih =>
    intro acc
    simp only [List.foldl_cons, marksFor]
    by_cases hcp : p.2 = Mark.correct ∨ p.2 = Mark.present
    · rw [if_pos hcp, ih, alookup_freqMapAdd]
      have hne : p.2 ≠ Mark.absent := (mark_cp_iff p.2).mp hcp
      by_cases hL : p.1 = L
      · rw [if_pos hL.symm, if_pos ⟨hL, hne⟩]
        simp
      · rw [if_neg (fun h => hL h.symm), if_neg (fun h => hL h.1)]
        rw [Nat.zero_add]
    · rw [if_neg hcp, ih]
      have hab : p.2 = Mark.absent := by
        cases hpm : p.2 <;> simp [hpm] at hcp ⊢
      rw [if_neg (fun h : p.1 = L ∧ p.2 ≠ Mark.absent => h.2 hab)]
      rw [Nat.zero_add]

/-- The `freqMap` of a guess holds, per letter, exactly the number of
`correct`/`present` marks of that letter in this guess. -/
lemma buildFreqMap_alookup (pairs : List (Char × Mark)) (L : Char) :
    alookup L (buildFreqMap pairs) =
      if marksFor L pairs = 0 then none else some (marksFor L pairs) := by
  have h1 := buildFreq_step_getD L pairs []
  have h2 := buildFreq_step_isSome L pairs []
  rw [buildFreqMap]
  cases hm : alookup L (pairs.foldl
      (fun m p =>
        if p.2 = Mark.correct ∨ p.2 = Mark.present then freqMapAdd m p.1 else m)
      []) with
  | none =>
    rw [hm] at h2
    simp [alookup] at h2
    rw [if_pos (by omega)]
  | some v =>
    rw [hm] at h1 h2
    simp [alookup] at h1 h2
    rw [if_neg (by omega)]
    exact congrArg some (by omega)

lemma alookup_isSome_mem (L : Char) :
    ∀ m : List (Char × Nat), (alookup L m).isSome = true ↔ L ∈ m.map Prod.fst := by
  intro m
  induction m with
  | nil => simp [alookup]
  | cons e rest ih =>
    by_cases heL : e.1 = L
    · simp [alookup, heL]
    · have hLe : ¬ L = e.1 := fun h => heL h.symm
      simp [alookup, heL, hLe, ih]

lemma freqMapAdd_keys (m : List (Char × Nat)) (c : Char) :
    (freqMapAdd m c).map Prod.fst =
      if (alookup c m).isSome = true then m.map Prod.fst
      else m.map Prod.fst ++ [c] := by
  unfold freqMapAdd
  by_cases hs : (alookup c m).isSome = true
  · rw [if_pos hs, if_pos hs, List.map_map]
    congr 1
    funext e
    by_cases hec : e.1 = c <;> simp [hec]
  · rw [if_neg hs, if_neg hs]
    simp

lemma buildFreq_nodup_step :
    ∀ (pairs : List (Char × Mark)) (acc : List (Char × Nat)),
      (acc.map Prod.fst).Nodup →
      ((pairs.foldl
          (fun m p =>
            if p.2 = Mark.correct ∨ p.2 = Mark.present then freqMapAdd m p.1 else m)
          acc).map Prod.fst).Nodup := by
  intro pairs
  induction pairs with
  | nil => intro acc h; simpa using h
  | cons p rest ih =>
    intro acc hacc
    simp only [List.foldl_cons]
    by_cases hcp : p.2 = Mark.correct ∨ p.2 = Mark.present
    · rw [if_pos hcp]
      refine ih _ ?_
      rw [freqMapAdd_keys]
      by_cases hs : (alookup p.1 acc).isSome = true
      · rw [if_pos hs]; exact hacc
      · rw [if_neg hs]
        have hnotin : p.1 ∉ acc.map Prod.fst := by
          rw [← alookup_isSome_mem]
          simp [hs]
        have hperm := List.perm_append_singleton p.1 (acc.map Prod.fst)
        rw [hperm.nodup_iff]
        exact List.nodup_cons.mpr ⟨hnotin, hacc⟩
    · rw [if_neg hcp]
      exact ih _ hacc

lemma buildFreqMap_nodup (pairs : List (Char × Mark)) :
    ((buildFreqMap pairs).map Prod.fst).Nodup := by
  rw [buildFreqMap]
  exact buildFreq_nodup_step pairs [] (by simp)

lemma mustContainMerge_self (mc : List (Char × Nat)) (c : Char) (n : Nat) :
    alookup c (mustContainMerge mc c n) =
      some ((alookup c mc).elim n (fun m => max m n)) := by
  unfold mustContainMerge
  by_cases hs : (alookup c mc).isSome = true
  · rw [if_pos hs, alookup_max_update, if_pos rfl]
    obtain ⟨v, hv⟩ := Option.isSome_iff_exists.mp hs
    simp [hv]
  · rw [if_neg hs, alookup_append]
    have hnone : alookup c mc = none := Option.not_isSome_iff_eq_none.mp hs
    simp [hnone, alookup]

lemma mustContainMerge_other (mc : List (Char × Nat)) (c : Char) (n : Nat)
    (L : Char) (h : ¬ L = c) :
    alookup L (mustContainMerge mc c n) = alookup L mc := by
  unfold mustContainMerge
  by_cases hs : (alookup c mc).isSome = true
  · rw [if_pos hs, alookup_max_update, if_neg h]
  · rw [if_neg hs, alookup_append]
    have hcL : ¬ c = L := fun hh => h hh.symm
    cases hm : alookup L mc <;> simp [alookup, hcL, hm]

/-- Folding the freq map into `mustContain` takes pointwise maxima on present
keys and appends the rest, provided the freq map's keys are distinct. -/
lemma mergeFold_alookup (L : Char) :
    ∀ fm mc : List (Char × Nat), (fm.map Prod.fst).Nodup →
      alookup L (fm.foldl (fun mc e => mustContainMerge mc e.1 e.2) mc) =
        match alookup L fm with
        | some n => some ((alookup L mc).elim n (fun m => max m n))
        | none => alookup L mc := by
  intro fm
  induction fm with
  | nil => intro mc _; simp [alookup]
  | cons e rest ih =>
    intro mc hnd
    simp only [List.foldl_cons]
    have hnd2 : e.1 ∉ rest.map Prod.fst ∧ (rest.map Prod.fst).Nodup := by
      have h := hnd
      rw [List.map_cons, List.nodup_cons] at h
      exact h
    by_cases hL : L = e.1
    · subst hL
      have hrest : alookup e.1 rest = none := by
        cases hx : alookup e.1 rest with
        | none => rfl
        | some v =>
          have hmem := (alookup_isSome_mem e.1 rest).mp (by simp [hx])
          exact absurd hmem hnd2.1
      rw [ih _ hnd2.2, hrest]
      rw [mustContainMerge_self]
      simp [alookup]
    · rw [ih _ hnd2.2, mustContainMerge_other mc e.1 e.2 L hL]
      have heL : ¬ e.1 = L := fun h => hL h.symm
      simp only [alookup, if_neg heL]

lemma updateHC_mustContain_existing (hc : HardConstraints) (g : List Char)
    (r : List Mark) (L : Char) (m : Nat) (h : alookup L hc.mustContain = some m) :
    alookup L (updateHardConstraints hc g r).mustContain =
      some (max m (marksFor L (g.zip r))) := by
  show alookup L ((buildFreqMap (g.zip r)).foldl
      (fun mc e => mustContainMerge mc e.1 e.2) hc.mustContain) = _
  rw [mergeFold_alookup L _ _ (buildFreqMap_nodup _), buildFreqMap_alookup]
  by_cases h0 : marksFor L (g.zip r) = 0
  · rw [if_pos h0, h0]
    simp [h]
  · rw [if_neg h0]
    simp [h]

lemma updateHC_mustContain_new (hc : HardConstraints) (g : List Char)
    (r : List Mark) (L : Char) (h : alookup L hc.mustContain = none) :
    alookup L (updateHardConstraints hc g r).mustContain =
      if marksFor L (g.zip r) = 0 then none else some (marksFor L (g.zip r)) := by
  show alookup L ((buildFreqMap (g.zip r)).foldl
      (fun mc e => mustContainMerge mc e.1 e.2) hc.mustContain) = _
  rw [mergeFold_alookup L _ _ (buildFreqMap_nodup _), buildFreqMap_alookup]
  by_cases h0 : marksFor L (g.zip r) = 0
  · rw [if_pos h0]
    exact h
  · rw [if_neg h0]
    simp [h]

/-- **C5.** After an evaluated guess, `updateHardConstraints` only grows the
constraint set: every `correct` position records the guess letter there
(idempotently — a `correct` mark implies the letter matches the fixed
target, so an existing entry is re-recorded unchanged), every letter with at
least one `correct`/`present` mark gets its `mustContain` minimum set to the
max of the existing value and this guess's `correct`+`present` count, no
recorded exact position or minimum is removed or decreased, and the
constraint set is reset (to empty) only by the round-start reset. -/
theorem updateHardConstraints_monotone (target g : List Char) (hc : HardConstraints)
    (hglen : g.length = WORD_LENGTH) (htlen : target.length = WORD_LENGTH)
    (heplen : hc.exactPositions.length = WORD_LENGTH)
    (hcons : ∀ (i : Nat) (c : Char), hc.exactPositions[i]? = some (some c) →
      target[i]? = some c) :
    (∀ (i : Nat) (c : Char), g[i]? = some c →
      (evaluateGuess g target)[i]? = some Mark.correct →
      (updateHardConstraints hc g (evaluateGuess g target)).exactPositions[i]? =
        some (some c)) ∧
    (∀ i : Nat, (evaluateGuess g target)[i]? ≠ some Mark.correct →
      (updateHardConstraints hc g (evaluateGuess g target)).exactPositions[i]? =
        hc.exactPositions[i]?) ∧
    (∀ (i : Nat) (c : Char), hc.exactPositions[i]? = some (some c) →
      (updateHardConstraints hc g (evaluateGuess g target)).exactPositions[i]? =
        some (some c)) ∧
    (∀ (L : Char) (m : Nat), alookup L hc.mustContain = some m →
      alookup L (updateHardConstraints hc g (evaluateGuess g target)).mustContain =
        some (max m (marksFor L (g.zip (evaluateGuess g target))))) ∧
    (∀ L : Char, alookup L hc.mustContain = none →
      alookup L (updateHardConstraints hc g (evaluateGuess g target)).mustContain =
        if marksFor L (g.zip (evaluateGuess g target)) = 0 then none
        else some (marksFor L (g.zip (evaluateGuess g target)))) ∧
    (∀ (L : Char) (m : Nat), alookup L hc.mustContain = some m →
      ∃ m2, alookup L
          (updateHardConstraints hc g (evaluateGuess g target)).mustContain =
            some m2 ∧ m ≤ m2) ∧
    (∀ s : ScriptState, (startGameReset s).hardConstraints = emptyConstraints) := by
  have hlen : g.length = target.length := by rw [hglen, htlen]
  refine ⟨?_, ?_, ?_, ?_, ?_, ?_, fun s => rfl⟩
  · intro i c hgi hri
    have hi : i < hc.exactPositions.length := by
      have h2 : i < (evaluateGuess g target).length := by
        by_contra hge
        rw [List.getElem?_eq_none (by omega)] at hri
        exact absurd hri (by simp)
      rw [evaluateGuess_length g target hlen] at h2
      omega
    exact applyCorrects_get_correct _ _ _ i c hri hgi hi
  · intro i hri
    exact applyCorrects_get_other _ _ _ i hri
  · intro i c hep
    by_cases hri : (evaluateGuess g target)[i]? = some Mark.correct
    · have hi : i < g.length := by
        have h2 : i < hc.exactPositions.length := by
          by_contra hge
          rw [List.getElem?_eq_none (by omega)] at hep
          exact absurd hep (by simp)
        omega
      obtain ⟨c2, hc2⟩ : ∃ c2, g[i]? = some c2 :=
        ⟨g[i], List.getElem?_eq_getElem hi⟩
      have hti := (evaluateGuess_correct_iff g target i c2 hc2).mp hri
      have hti2 := hcons i c hep
      obtain rfl : c2 = c := by
        rw [hti] at hti2
        simpa using hti2
      exact applyCorrects_get_correct _ _ _ i c2 hri hc2 (by omega)
    · exact (applyCorrects_get_other (evaluateGuess g target) g hc.exactPositions
        i hri).trans hep
  · exact fun L m h => updateHC_mustContain_existing hc g _ L m h
  · exact fun L h => updateHC_mustContain_new hc g _ L h
  · intro L m h
    exact ⟨max m (marksFor L (g.zip (evaluateGuess g target))),
      updateHC_mustContain_existing hc g _ L m h, le_max_left _ _⟩

/-- Witness for **C5**: with `C` already required once, guessing `TRACE`
against `CRANE` keeps the `mustContain` entry for `C` at the max of the old
minimum and this guess's `correct`+`present` count for `C`. -/
theorem updateHardConstraints_monotone_witness :
    alookup 'C'
        (updateHardConstraints ⟨[none, none, none, none, none], [('C', 1)]⟩
          ['T', 'R', 'A', 'C', 'E']
          (evaluateGuess ['T', 'R', 'A', 'C', 'E'] ['C', 'R', 'A', 'N', 'E'])).mustContain =
      some (max 1 (marksFor 'C'
        ((['T', 'R', 'A', 'C', 'E'] : List Char).zip
          (evaluateGuess ['T', 'R', 'A', 'C', 'E'] ['C', 'R', 'A', 'N', 'E'])))) :=
  (updateHardConstraints_monotone ['C', 'R', 'A', 'N', 'E'] ['T', 'R', 'A', 'C', 'E']
      ⟨[none, none, none, none, none], [('C', 1)]⟩ rfl rfl rfl
      (by intro i c h; rcases i with _ | _ | _ | _ | _ | i <;> simp at h)).2.2.2.1
    'C' 1 (by decide)

/-! ### Multiplayer session model (multiplayer.js) -/

/-- A guess record stored under `players/{id}/guesses/{row}`. -/
structure MpGuess where
  word : List Char
  result : List Mark
deriving DecidableEq

/-- A player record (`mpPlayerObj`, multiplayer.js:288-290, plus the
transient `typing` and custom-mode `proposedWord` fields). -/
structure MpPlayer where
  name : String
  done : Bool
  won : Bool
  guessCount : Nat
  guesses : List (Nat × MpGuess)
  isWordSetter : Bool
  typing : List Char
  proposedWord : Option (List Char)
deriving DecidableEq

/-- The party record `parties/{code}` (multiplayer.js:220-230). -/
structure Party where
  host : String
  status : String
  gameMode : String
  round : Nat
  targetWord : List Char
  wordSetterIndex : Nat
  wordQueue : List (Nat × String)
  players : List (String × MpPlayer)
deriving DecidableEq

/-! #### C3: the host relay for a non-host word setter -/

/-- The syntactic shape check of the host relay
(`/^[A-Za-z]{5}$/.test(proposed)`, multiplayer.js:450). -/
def relayShapeOk (w : List Char) : Bool :=
  w.length == 5 && w.all (fun c => c.isAlpha)

/-- The reset the relay applies to one player record (multiplayer.js:456-463):
`done`/`isWordSetter` true exactly for the setter, round fields zeroed,
`proposedWord` cleared. -/
def resetPlayerForRound (setterId id : String) (p : MpPlayer) : MpPlayer :=
  { p with done := id == setterId, won := false, guessCount := 0, guesses := [],
           isWordSetter := id == setterId, proposedWord := none }

/-- The authoritative multi-path update the host performs on a valid proposed
word (multiplayer.js:453-465): reset every player, then set `targetWord` to
the uppercased word and `status` to `playing`. -/
def relayApply (setterId : String) (w : List Char) (party : Party) : Party :=
  { party with
      players := party.players.map
        (fun pr => (pr.1, resetPlayerForRound setterId pr.1 pr.2))
      targetWord := w.map Char.toUpper
      status := "playing" }

/-- One firing of the host relay listener on the setter's `proposedWord`
(multiplayer.js:448-466): `null` or ill-shaped values are ignored (the
listener stays attached); on a valid word the listener detaches itself and
then applies the authoritative update.  The Bool is the attached flag. -/
def relayHandler (setterId : String) (party : Party)
    (proposed : Option (List Char)) (attached : Bool) : Party × Bool :=
  if attached then
    match proposed with
    | none => (party, true)
    | some w =>
      if relayShapeOk w then (relayApply setterId w party, false) else (party, true)
  else (party, false)

lemma relayShapeOk_iff (w : List Char) :
    relayShapeOk w = true ↔ (w.length = 5 ∧ ∀ c ∈ w, c.isAlpha = true) := by
  simp [relayShapeOk, List.all_eq_true]

/-! #### C7: word-setter submission validation -/

/-- `isValidWord(word)` (script.js:309-311): membership of the lowercased
word in the accepted word list. -/
def isValidWord (allValid : List (List Char)) (w : List Char) : Bool :=
  allValid.contains (w.map Char.toLower)

/-- The local validation `mpSubmitSecretWord` runs on the trimmed, uppercased
input before any store write (multiplayer.js:513-515): length exactly 5,
then `/^[A-Z]+$/`.  The accepted word list is in scope (via `isValidWord`)
but is not consulted on this path. -/
def mpSubmitWordCheck (allValid : List (List Char)) (word : List Char) :
    Option String :=
  if word.length ≠ 5 then some "Word must be exactly 5 letters"
  else if !(!word.isEmpty && word.all (fun c => c.isUpper)) then
    some "Word must contain only letters"
  else none

/-! #### C2: the host's round-end barrier -/

/-- The host round-end listener state: whether the `players` subscription is
still attached, the party `status` as last written, and how many
`status=results` writes were issued. -/
structure RoundEndState where
  attached : Bool
  status : String
  resultsWrites : Nat
deriving DecidableEq

/-- The round-barrier condition (multiplayer.js:664):
`all.length > 0 && all.every(p => p.done)`. -/
def allPlayersDone (players : List (String × MpPlayer)) : Bool :=
  decide (players.length > 0) && players.all (fun pr => pr.2.done)

/-- One firing of the host round-end `players` listener
(multiplayer.js:661-668, and identically multiplayer.js:586-593): when the
barrier holds, detach from the `players` subscription first, then write
`status=results`. -/
def roundEndHandler (players : List (String × MpPlayer)) (s : RoundEndState) :
    RoundEndState :=
  if s.attached then
    if allPlayersDone players then
      { attached := false, status := "results", resultsWrites := s.resultsWrites + 1 }
    else s
  else s

/-- Delivering a sequence of `players` snapshots to the listener. -/
def roundEndRun (snaps : List (List (String × MpPlayer))) (s : RoundEndState) :
    RoundEndState :=
  snaps.foldl (fun st ps => roundEndHandler ps st) s

/-- The kinds of store subscriptions a client pushes onto `mpListeners`. -/
inductive ListenerTag
  | lobbyPlayers
  | lobbyGameMode
  | lobbyStatus
  | choosingStatus
  | relayProposedWord
  | roundEndPlayers
  | statusResults
  | liveBoards
  | nextRoundStatus
deriving DecidableEq

/-- `showMpWatchingOverlay()` (multiplayer.js:576-607): spectator live
boards, then — on the host only — the all-done round-end check (the "host is
also the word setter" case), then the one-shot `status=results` listener. -/
def showMpWatchingOverlay (isHost : Bool) (ls : List ListenerTag) :
    List ListenerTag :=
  let ls1 := ls ++ [ListenerTag.liveBoards]
  let ls2 := if isHost then ls1 ++ [ListenerTag.roundEndPlayers] else ls1
  ls2 ++ [ListenerTag.statusResults]

/-- `listenForRoundEnd()` (multiplayer.js:657-681): the host registers the
all-done check; everyone registers the `status=results` listener. -/
def listenForRoundEnd (isHost : Bool) (ls : List ListenerTag) : List ListenerTag :=
  (if isHost then ls ++ [ListenerTag.roundEndPlayers] else ls) ++
    [ListenerTag.statusResults]

/-! #### C9: one-shot status listeners -/

/-- State of the lobby `status` listener (multiplayer.js:329-341): attached
flag plus how many times each phase transition was handled. -/
structure LobbyShot where
  attached : Bool
  choosingRuns : Nat
  playingRuns : Nat
deriving DecidableEq

/-- One firing of the lobby `status` listener (multiplayer.js:329-340): on
`choosing` or `playing` it unsubscribes first (`statusRef.off`) and then
reacts; other values are ignored. -/
def lobbyStatusHandler (v : String) (s : LobbyShot) : LobbyShot :=
  if s.attached then
    if v == "choosing" then
      { attached := false, choosingRuns := s.choosingRuns + 1,
        playingRuns := s.playingRuns }
    else if v == "playing" then
      { attached := false, choosingRuns := s.choosingRuns,
        playingRuns := s.playingRuns + 1 }
    else s
  else s

/-- State of the results-screen `status` listener (multiplayer.js:800-821). -/
structure ResultsShot where
  attached : Bool
  playingRuns : Nat
  choosingRuns : Nat
  lobbyRuns : Nat
deriving DecidableEq

/-- One firing of the results-screen `status` listener
(multiplayer.js:801-820): one-shot for `playing`/`choosing`/`lobby`
(unsubscribe first, then react); `results` is ignored. -/
def resultsStatusHandler (v : String) (s : ResultsShot) : ResultsShot :=
  if s.attached then
    if v == "playing" then { s with attached := false, playingRuns := s.playingRuns + 1 }
    else if v == "choosing" then
      { s with attached := false, choosingRuns := s.choosingRuns + 1 }
    else if v == "lobby" then { s with attached := false, lobbyRuns := s.lobbyRuns + 1 }
    else s
  else s

/-- Delivering a sequence of `status` values to the lobby listener. -/
def lobbyRun (vs : List String) (s : LobbyShot) : LobbyShot :=
  vs.foldl (fun st v => lobbyStatusHandler v st) s

/-- Delivering a sequence of `status` values to the results listener. -/
def resultsRun (vs : List String) (s : ResultsShot) : ResultsShot :=
  vs.foldl (fun st v => resultsStatusHandler v st) s

/-! #### C8: leaving a party -/

/-- The client-side multiplayer session state touched by `leaveParty` and
`cleanupMp` (multiplayer.js:20-31).  `partyRef` models whether `mpPartyRef`
is non-null. -/
structure MpSession where
  mpActive : Bool
  mpIsHost : Bool
  partyRef : Bool
  listeners : List ListenerTag
  mpDone : Bool
  mpIsWordSetter : Bool
  localGuessCount : Nat
deriving DecidableEq

/-- `cleanupMp()` (multiplayer.js:886-896): runs every queued unsubscribe
function, empties the listener list, and clears the session flags. -/
def cleanupMp (s : MpSession) : MpSession :=
  { s with listeners := [], mpActive := false, partyRef := false,
           localGuessCount := 0, mpDone := false, mpIsHost := false,
           mpIsWordSetter := false }

/-- `leaveParty()` (multiplayer.js:870-884): awaits the remove call (whole
party for the host, own player record otherwise) and only afterwards calls
`cleanupMp`.  `removeOk` models whether that network call resolves; a
rejection propagates out of the `async` function before `cleanupMp` runs,
leaving the state untouched.  The Bool result records whether cleanup ran. -/
def leaveParty (removeOk : Bool) (s : MpSession) : MpSession × Bool :=
  if s.partyRef then
    if removeOk then (cleanupMp s, true) else (s, false)
  else (cleanupMp s, true)

/-- **C3.** The host relay ignores (staying subscribed) any `proposedWord`
that is absent or not exactly 5 alphabetic characters; on a syntactically
valid word it detaches and performs the authoritative update: every player's
`done`/`won`/`guessCount`/`guesses`/`isWordSetter` fields are reset with
`done` and `isWordSetter` true exactly for the setter, every player's
`proposedWord` is cleared, `targetWord` becomes the uppercased proposed
word, and `status` becomes `playing`. -/
theorem relay_authoritative_update (setterId : String) (party : Party) :
    relayHandler setterId party none true = (party, true) ∧
    (∀ w : List Char, ¬ (w.length = 5 ∧ ∀ c ∈ w, c.isAlpha = true) →
      relayHandler setterId party (some w) true = (party, true)) ∧
    (∀ w : List Char, w.length = 5 → (∀ c ∈ w, c.isAlpha = true) →
      relayHandler setterId party (some w) true =
          (relayApply setterId w party, false) ∧
        (relayApply setterId w party).status = "playing" ∧
        (relayApply setterId w party).targetWord = w.map Char.toUpper ∧
        (relayApply setterId w party).players.map Prod.fst =
          party.players.map Prod.fst ∧
        (∀ pr ∈ (relayApply setterId w party).players,
          pr.2.done = (pr.1 == setterId) ∧ pr.2.isWordSetter = (pr.1 == setterId) ∧
            pr.2.won = false ∧ pr.2.guessCount = 0 ∧ pr.2.guesses = [] ∧
            pr.2.proposedWord = none)) := by
  refine ⟨rfl, ?_, ?_⟩
  · intro w hw
    have hso : ¬ relayShapeOk w = true := fun h => hw ((relayShapeOk_iff w).mp h)
    simp [relayHandler, hso]
  · intro w h5 halpha
    have hso : relayShapeOk w = true := (relayShapeOk_iff w).mpr ⟨h5, halpha⟩
    refine ⟨by simp [relayHandler, hso], rfl, rfl, by simp [relayApply], ?_⟩
    intro pr hpr
    simp only [relayApply, List.mem_map] at hpr
    obtain ⟨q, hq, rfl⟩ := hpr
    exact ⟨rfl, rfl, rfl, rfl, rfl, rfl⟩

/-- A waiting player record, used by the C3 witness. -/
def samplePlayerWaiting : MpPlayer :=
  { name := "Ann", done := false, won := false, guessCount := 0, guesses := [],
    isWordSetter := false, typing := [], proposedWord := none }

/-- The setter's record after proposing `house`, used by the C3 witness. -/
def samplePlayerProposing : MpPlayer :=
  { samplePlayerWaiting with
      name := "Bo"
      proposedWord := some ['h', 'o', 'u', 's', 'e'] }

/-- A two-player custom-mode party in the choosing phase, used by the C3
witness. -/
def samplePartyChoosing : Party :=
  { host := "host1", status := "choosing", gameMode := "custom", round := 1,
    targetWord := [], wordSetterIndex := 0,
    wordQueue := [(0, "setter1"), (1, "host1")],
    players := [("host1", samplePlayerWaiting), ("setter1", samplePlayerProposing)] }

/-- Witness for **C3**: a two-player party whose non-host setter proposes
`house`; the relay accepts it and performs the authoritative update. -/
theorem relay_authoritative_update_witness :
    relayHandler "setter1" samplePartyChoosing (some ['h', 'o', 'u', 's', 'e']) true =
      (relayApply "setter1" ['h', 'o', 'u', 's', 'e'] samplePartyChoosing, false) :=
  ((relay_authoritative_update "setter1" samplePartyChoosing).2.2
    ['h', 'o', 'u', 's', 'e'] (by decide) (by decide)).1

/-- **C7 counterexample.** The submit path accepts `QQQQQ` while the accepted
word list (here empty) does not contain it: dictionary membership is not
checked locally before the write, contrary to the claim. -/
theorem mpSubmitSecretWord_no_dictionary_check :
    mpSubmitWordCheck [] ['Q', 'Q', 'Q', 'Q', 'Q'] = none ∧
      isValidWord [] ['Q', 'Q', 'Q', 'Q', 'Q'] = false := by decide

/-- **C7 (amended).** Before any write, the word-setter's local validation
checks only the syntactic shape — length exactly 5 and uppercase-alphabetic
characters on the normalized input — and is independent of the accepted word
list; the host relay likewise re-validates only the 5-alphabetic-characters
shape, not dictionary membership. -/
theorem mpSubmitSecretWord_local_validation (allValid : List (List Char))
    (word : List Char) :
    (mpSubmitWordCheck allValid word = none ↔
      (word.length = 5 ∧ ∀ c ∈ word, c.isUpper = true)) ∧
    mpSubmitWordCheck allValid word = mpSubmitWordCheck [] word ∧
    (relayShapeOk word = true ↔
      (word.length = 5 ∧ ∀ c ∈ word, c.isAlpha = true)) := by
  refine ⟨?_, rfl, relayShapeOk_iff word⟩
  unfold mpSubmitWordCheck
  by_cases h5 : word.length = 5
  · rw [if_neg (by omega)]
    have hne : ¬ word.isEmpty = true := by
      cases word
      · simp at h5
      · simp
    by_cases hall : word.all (fun c => c.isUpper) = true
    · rw [if_neg (by simp [hne, hall])]
      exact ⟨fun _ => ⟨h5, List.all_eq_true.mp hall⟩, fun _ => rfl⟩
    · rw [if_pos (by simp [hall])]
      constructor
      · intro h; simp at h
      · rintro ⟨-, hforall⟩
        exact absurd (List.all_eq_true.mpr hforall) hall
  · rw [if_pos (by omega)]
    simp [h5]

/-- Witness for the amended **C7**: `HOUSE` passes the syntactic local check
(with an empty accepted list, underscoring that the list is not consulted). -/
theorem mpSubmitSecretWord_local_validation_witness :
    mpSubmitWordCheck [] ['H', 'O', 'U', 'S', 'E'] = none :=
  (mpSubmitSecretWord_local_validation [] ['H', 'O', 'U', 'S', 'E']).1.mpr
    (by decide)

lemma allPlayersDone_iff (players : List (String × MpPlayer)) :
    allPlayersDone players = true ↔
      (players ≠ [] ∧ ∀ pr ∈ players, pr.2.done = true) := by
  simp [allPlayersDone, List.all_eq_true, List.length_pos]

lemma roundEndRun_writes_le :
    ∀ (snaps : List (List (String × MpPlayer))) (s : RoundEndState),
      (roundEndRun snaps s).resultsWrites ≤
        s.resultsWrites + (if s.attached then 1 else 0) := by
  intro snaps
  induction snaps with
  | nil => intro s; simp [roundEndRun]
  | cons ps rest ih =>
    intro s
    have h := ih (roundEndHandler ps s)
    simp only [roundEndRun, List.foldl_cons] at h ⊢
    by_cases hatt : s.attached
    · by_cases hdone : allPlayersDone ps = true
      · have hstep : roundEndHandler ps s =
            { attached := false, status := "results",
              resultsWrites := s.resultsWrites + 1 } := by
          simp [roundEndHandler, hatt, hdone]
        rw [hstep] at h ⊢
        simp at h
        rw [if_pos hatt]
        omega
      · have hstep : roundEndHandler ps s = s := by
          simp [roundEndHandler, hatt, hdone]
        rw [hstep] at h ⊢
        exact h
    · have hstep : roundEndHandler ps s = s := by
        simp [roundEndHandler, hatt]
      rw [hstep] at h ⊢
      exact h

/-- **C2.** While attached during play, the host's round-end listener writes
`status=results` exactly when the players map is non-empty and every record
(the pre-marked-done word-setter included) has `done=true`; it detaches from
the `players` subscription in the same step (before the write), so any
sequence of snapshot deliveries produces at most one write; and the same
check is registered on the host both by `listenForRoundEnd` and — when the
host is itself the spectating word setter — by `showMpWatchingOverlay`. -/
theorem roundEnd_barrier (players : List (String × MpPlayer)) (s : RoundEndState)
    (hatt : s.attached = true) :
    ((roundEndHandler players s).resultsWrites = s.resultsWrites + 1 ↔
      (players ≠ [] ∧ ∀ pr ∈ players, pr.2.done = true)) ∧
    ((players ≠ [] ∧ ∀ pr ∈ players, pr.2.done = true) →
      roundEndHandler players s =
        { attached := false, status := "results",
          resultsWrites := s.resultsWrites + 1 }) ∧
    (¬ (players ≠ [] ∧ ∀ pr ∈ players, pr.2.done = true) →
      roundEndHandler players s = s) ∧
    (∀ snaps : List (List (String × MpPlayer)),
      (roundEndRun snaps
        { attached := true, status := s.status, resultsWrites := 0 }).resultsWrites ≤ 1) ∧
    (∀ ls : List ListenerTag,
      ListenerTag.roundEndPlayers ∈ showMpWatchingOverlay true ls) ∧
    (∀ ls : List ListenerTag,
      ListenerTag.roundEndPlayers ∈ listenForRoundEnd true ls) := by
  refine ⟨?_, ?_, ?_, ?_, ?_, ?_⟩
  · by_cases hdone : allPlayersDone players = true
    · simp only [roundEndHandler, if_pos hatt, if_pos hdone]
      exact ⟨fun _ => (allPlayersDone_iff players).mp hdone, fun _ => by simp⟩
    · simp only [roundEndHandler, if_pos hatt, if_neg hdone]
      constructor
      · intro heq; omega
      · intro hh; exact absurd ((allPlayersDone_iff players).mpr hh) hdone
  · intro h
    have hdone : allPlayersDone players = true := (allPlayersDone_iff players).mpr h
    simp [roundEndHandler, hatt, hdone]
  · intro h
    have hdone : ¬ allPlayersDone players = true :=
      fun hd => h ((allPlayersDone_iff players).mp hd)
    simp [roundEndHandler, hatt, hdone]
  · intro snaps
    have h := roundEndRun_writes_le snaps
      { attached := true, status := s.status, resultsWrites := 0 }
    simpa using h
  · intro ls
    simp [showMpWatchingOverlay]
  · intro ls
    simp [listenForRoundEnd]

/-- A finished sample player record, used by the C2 witness. -/
def samplePlayerDone : MpPlayer :=
  { name := "Ann", done := true, won := true, guessCount := 3, guesses := [],
    isWordSetter := false, typing := [], proposedWord := none }

/-- Witness for **C2**: with one done player in the map, a firing of the
attached listener detaches and writes `results` once. -/
theorem roundEnd_barrier_witness :
    roundEndHandler [("p1", samplePlayerDone)]
        { attached := true, status := "playing", resultsWrites := 0 } =
      { attached := false, status := "results", resultsWrites := 1 } :=
  (roundEnd_barrier _ _ rfl).2.1 (by simp [samplePlayerDone])

/-- **C8 counterexample.** When the "remove my record" (here: the host's
party-delete) call rejects, `leaveParty` propagates the error before
`cleanupMp` runs and the client's listener list is *not* empty, contrary to
the claim that every exit path releases all subscriptions. -/
theorem leaveParty_failure_leaks_listeners :
    (leaveParty false
        { mpActive := true, mpIsHost := true, partyRef := true,
          listeners := [ListenerTag.statusResults], mpDone := false,
          mpIsWordSetter := false, localGuessCount := 0 }).1.listeners ≠ [] := by
  decide

/-- **C8 (amended).** `cleanupMp` always empties the listener list and clears
the session, and `leaveParty` releases every subscription whenever the
preceding remove call resolves (and also when there is no party reference);
but when the remove call rejects, `leaveParty` returns with the state — and
the subscriptions — untouched. -/
theorem leaveParty_releases_on_success (s : MpSession) :
    (cleanupMp s).listeners = [] ∧
    (cleanupMp s).mpActive = false ∧
    (leaveParty true s).1 = cleanupMp s ∧
    (leaveParty true s).1.listeners = [] ∧
    (s.partyRef = false → (leaveParty false s).1.listeners = []) ∧
    (s.partyRef = true → (leaveParty false s).1 = s) := by
  refine ⟨rfl, rfl, ?_, ?_, ?_, ?_⟩
  · by_cases hp : s.partyRef = true <;> simp [leaveParty, hp]
  · by_cases hp : s.partyRef = true <;> simp [leaveParty, hp, cleanupMp]
  · intro hp
    simp [leaveParty, hp, cleanupMp]
  · intro hp
    simp [leaveParty, hp]

/-- Witness for the amended **C8**: on a successful remove, an active session
with one listener ends with an empty listener list. -/
theorem leaveParty_releases_on_success_witness :
    (leaveParty true
        { mpActive := true, mpIsHost := false, partyRef := true,
          listeners := [ListenerTag.statusResults], mpDone := false,
          mpIsWordSetter := false, localGuessCount := 0 }).1.listeners = [] :=
  (leaveParty_releases_on_success _).2.2.2.1

lemma lobbyRun_le :
    ∀ (vs : List String) (s : LobbyShot),
      (lobbyRun vs s).choosingRuns + (lobbyRun vs s).playingRuns ≤
        s.choosingRuns + s.playingRuns + (if s.attached then 1 else 0) := by
  intro vs
  induction vs with
  | nil => intro s; simp [lobbyRun]
  | cons v rest ih =>
    intro s
    have h := ih (lobbyStatusHandler v s)
    simp only [lobbyRun, List.foldl_cons] at h ⊢
    by_cases hatt : s.attached
    · by_cases hch : (v == "choosing") = true
      · have hstep : lobbyStatusHandler v s =
            { attached := false, choosingRuns := s.choosingRuns + 1,
              playingRuns := s.playingRuns } := by
          simp [lobbyStatusHandler, hatt, hch]
        rw [hstep] at h ⊢
        simp at h
        rw [if_pos hatt]
        omega
      · by_cases hpl : (v == "playing") = true
        · have hstep : lobbyStatusHandler v s =
              { attached := false, choosingRuns := s.choosingRuns,
                playingRuns := s.playingRuns + 1 } := by
            simp [lobbyStatusHandler, hatt, hch, hpl]
          rw [hstep] at h ⊢
          simp at h
          rw [if_pos hatt]
          omega
        · have hstep : lobbyStatusHandler v s = s := by
            simp [lobbyStatusHandler, hatt, hch, hpl]
          rw [hstep] at h ⊢
          exact h
    · have hstep : lobbyStatusHandler v s = s := by
        simp [lobbyStatusHandler, hatt]
      rw [hstep] at h ⊢
      exact h

lemma resultsRun_le :
    ∀ (vs : List String) (s : ResultsShot),
      (resultsRun vs s).playingRuns + (resultsRun vs s).choosingRuns +
          (resultsRun vs s).lobbyRuns ≤
        s.playingRuns + s.choosingRuns + s.lobbyRuns +
          (if s.attached then 1 else 0) := by
  intro vs
  induction vs with
  | nil => intro s; simp [resultsRun]
  | cons v rest ih =>
    intro s
    have h := ih (resultsStatusHandler v s)
    simp only [resultsRun, List.foldl_cons] at h ⊢
    by_cases hatt : s.attached
    · by_cases hpl : (v == "playing") = true
      · have hstep : resultsStatusHandler v s =
            { s with attached := false, playingRuns := s.playingRuns + 1 } := by
          simp [resultsStatusHandler, hatt, hpl]
        rw [hstep] at h ⊢
        simp at h
        rw [if_pos hatt]
        omega
      · by_cases hch : (v == "choosing") = true
        · have hstep : resultsStatusHandler v s =
              { s with attached := false, choosingRuns := s.choosingRuns + 1 } := by
            simp [resultsStatusHandler, hatt, hpl, hch]
          rw [hstep] at h ⊢
          simp at h
          rw [if_pos hatt]
          omega
        · by_cases hlb : (v == "lobby") = true
          · have hstep : resultsStatusHandler v s =
                { s with attached := false, lobbyRuns := s.lobbyRuns + 1 } := by
              simp [resultsStatusHandler, hatt, hpl, hch, hlb]
            rw [hstep] at h ⊢
            simp at h
            rw [if_pos hatt]
            omega
          · have hstep : resultsStatusHandler v s = s := by
              simp [resultsStatusHandler, hatt, hpl, hch, hlb]
            rw [hstep] at h ⊢
            exact h
    · have hstep : resultsStatusHandler v s = s := by
        simp [resultsStatusHandler, hatt]
      rw [hstep] at h ⊢
      exact h

/-- **C9.** Per-phase status listeners are one-shot: once detached they never
react again, an attached listener handles at most one transition over any
delivery sequence, and redelivering `status=playing` to the lobby or results
listener triggers the round start exactly once. -/
theorem status_listener_one_shot (vs : List String) (sl : LobbyShot)
    (sr : ResultsShot) (hl : sl.attached = true) (hr : sr.attached = true) :
    ((lobbyRun vs sl).choosingRuns + (lobbyRun vs sl).playingRuns ≤
      sl.choosingRuns + sl.playingRuns + 1) ∧
    ((resultsRun vs sr).playingRuns + (resultsRun vs sr).choosingRuns +
        (resultsRun vs sr).lobbyRuns ≤
      sr.playingRuns + sr.choosingRuns + sr.lobbyRuns + 1) ∧
    (∀ v s2, s2.attached = false → lobbyStatusHandler v s2 = s2) ∧
    (∀ v s2, s2.attached = false → resultsStatusHandler v s2 = s2) ∧
    lobbyRun ["playing", "playing"] { attached := true, choosingRuns := 0, playingRuns := 0 } =
      { attached := false, choosingRuns := 0, playingRuns := 1 } ∧
    resultsRun ["playing", "playing"]
        { attached := true, playingRuns := 0, choosingRuns := 0, lobbyRuns := 0 } =
      { attached := false, playingRuns := 1, choosingRuns := 0, lobbyRuns := 0 } := by
  refine ⟨?_, ?_, ?_, ?_, by decide, by decide⟩
  · have h := lobbyRun_le vs sl
    simpa [hl] using h
  · have h := resultsRun_le vs sr
    simpa [hr] using h
  · intro v s2 h2
    simp [lobbyStatusHandler, h2]
  · intro v s2 h2
    simp [resultsStatusHandler, h2]

/-- Witness for **C9**: a freshly attached pair of listeners fed the
redelivered sequence `playing, playing` handles the transition once. -/
theorem status_listener_one_shot_witness :
    (lobbyRun ["playing", "playing"]
        { attached := true, choosingRuns := 0, playingRuns := 0 }).choosingRuns +
      (lobbyRun ["playing", "playing"]
        { attached := true, choosingRuns := 0, playingRuns := 0 }).playingRuns ≤
      0 + 0 + 1 :=
  (status_listener_one_shot ["playing", "playing"]
      { attached := true, choosingRuns := 0, playingRuns := 0 }
      { attached := true, playingRuns := 0, choosingRuns := 0, lobbyRuns := 0 }
      rfl rfl).1

end Wordle
